import Mathlib

/-!
Verification of the surfify spherical U-Net (`surfify/models/unet.py`) and of
the mesh-based augmentation operators (`surfify/augmentation/base.py`).

The development shallowly embeds the Python source:

* tensors are represented by their `batch x channels x vertices` shapes when a
  claim is about data-flow shapes, and by index functions into `ℚ` when a claim
  is about values;
* Python exceptions become an explicit `PyErr` error type threaded through
  `Except`;
* the external collaborators that the spec lists in its interface section
  (geometric primitives such as `icosahedron`, `neighbors`, `downsample`,
  `interpolate`, `find_neighbors`, and the neural primitives such as
  `IcoDiNeConv`, `IcoPool`, the up-sampling layers, `BatchNorm1d`, `Linear`)
  are not part of the two source files; where a claim needs them they are
  either universally quantified parameters or definitions whose doc comment
  starts with `Modelled from the spec:`.
-/

namespace Surfify

/-- Kinds of Python exceptions raised by the modelled code.  `shapeMismatch`
abstracts whatever error the external tensor engine raises when a layer is fed
a tensor of the wrong shape; the code under verification never raises it
itself. -/
inductive PyErr where
  | runtimeError (msg : String)
  | valueError (msg : String)
  | keyError
  | indexError
  | shapeMismatch
  deriving DecidableEq, Repr

/-- Shape of a `batch x channels x vertices` feature tensor. -/
structure Shape where
  batch : ℕ
  chans : ℕ
  verts : ℕ
  deriving DecidableEq, Repr

/-- Modelled from the spec: `surfify.utils.number_of_ico_vertices` is outside
`src/`; the spec only says the per-order sizes follow the closed-form
icosahedron subdivision formula, which is `10 * 4 ^ order + 2` vertices at
subdivision order `order`. -/
def numberOfIcoVertices (order : ℕ) : ℕ := 10 * 4 ^ order + 2

/-- Modelled from the spec: shape contract of the mesh-neighborhood
convolution layers (`IcoDiNeConv` / `IcoRePaConv`, outside `src/`).  A forward
call transforms a `batch x channels x vertices` tensor; the layer is built for
`inCh` input channels, `outCh` output channels and a neighbor table with
`tableV` rows (one per vertex of the layer's resolution). -/
def convShape (inCh outCh tableV : ℕ) (s : Shape) : Option Shape :=
  if s.chans = inCh ∧ s.verts = tableV then some ⟨s.batch, outCh, tableV⟩ else none

/-- Modelled from the spec: shape contract of `BatchNorm1d` (external); it
requires the channel dimension to equal its feature count and keeps the shape
unchanged. -/
def batchNormShape (features : ℕ) (s : Shape) : Option Shape :=
  if s.chans = features then some s else none

/-- Modelled from the spec: the leaky-rectify activation is elementwise and
keeps the shape unchanged. -/
def leakyReLUShape (s : Shape) : Option Shape := some s

/-- Modelled from the spec: shape contract of `IcoPool` (external); pooling
maps the fine resolution (`fineV` vertices) to the next coarser one
(`coarseV` vertices) and preserves batch and channels. -/
def icoPoolShape (fineV coarseV : ℕ) (s : Shape) : Option Shape :=
  if s.verts = fineV then some ⟨s.batch, s.chans, coarseV⟩ else none

/-- Modelled from the spec: common shape contract of the four up-sampling
layers (`IcoUpSample`, `IcoFixIndexUpSample`, `IcoMaxIndexUpSample`,
`IcoUpConv`, all external); each maps `inCh` channels at the coarse resolution
(`coarseV` vertices) to `outCh` channels at the fine resolution (`fineV`
vertices). -/
def icoUpShape (inCh outCh coarseV fineV : ℕ) (s : Shape) : Option Shape :=
  if s.chans = inCh ∧ s.verts = coarseV then some ⟨s.batch, outCh, fineV⟩ else none

/-- Shape of `torch.cat((x1, x2), 1)`: channel-wise concatenation. -/
def catShape (s1 s2 : Shape) : Option Shape :=
  if s1.batch = s2.batch ∧ s1.verts = s2.verts then
    some ⟨s1.batch, s1.chans + s2.chans, s1.verts⟩
  else none

/-- Shape behaviour of `DownBlock.forward`: optional pooling (skipped when
`first`), then `conv => BN => ReLU` twice, exactly as in the source's
`self.block`. -/
def downBlockShape (first : Bool) (inCh outCh convV poolFineV poolCoarseV : ℕ)
    (s : Shape) : Option Shape :=
  (if first then some s else icoPoolShape poolFineV poolCoarseV s).bind fun s1 =>
  (convShape inCh outCh convV s1).bind fun s2 =>
  (batchNormShape outCh s2).bind fun s3 =>
  (leakyReLUShape s3).bind fun s4 =>
  (convShape outCh outCh convV s4).bind fun s5 =>
  (batchNormShape outCh s5).bind fun s6 =>
  leakyReLUShape s6

/-- Shape behaviour of `UpBlock.forward`: up-sampling of `x1`, channel-wise
concatenation with the skip connection `x2`, then the `double_conv`
(`conv => BN => ReLU` twice), exactly as in the source. -/
def upBlockShape (inCh outCh convV coarseV fineV : ℕ) (x1 x2 : Shape) :
    Option Shape :=
  (icoUpShape inCh outCh coarseV fineV x1).bind fun u =>
  (catShape u x2).bind fun c =>
  (convShape inCh outCh convV c).bind fun t1 =>
  (batchNormShape outCh t1).bind fun t2 =>
  (leakyReLUShape t2).bind fun t3 =>
  (convShape outCh outCh convV t3).bind fun t4 =>
  (batchNormShape outCh t4).bind fun t5 =>
  leakyReLUShape t5

/-- The filter-width schedule
`self.filts = [in_channels] + [start_filts * 2 ** idx for idx in range(depth)]`
read at index `idx` (agrees with the Python list on every index `≤ depth`,
which are the only indices the source reads). -/
def filts (inChannels startFilts : ℕ) (idx : ℕ) : ℕ :=
  if idx = 0 then inChannels else startFilts * 2 ^ (idx - 1)

/-- Shape behaviour of the encoder `DownBlock` number `idx` (0-based), wired
as in `SphericalUNet.__init__`: it lives at icosahedron order `n - idx`
(`n` = `in_order`), maps `filts[idx]` to `filts[idx + 1]` channels, convolves
with the order-`n - idx` neighbor table and (when `idx ≠ 0`) pools from order
`n - idx + 1` down to order `n - idx`. -/
def downShapeAt (n inCh start idx : ℕ) (s : Shape) : Option Shape :=
  downBlockShape (idx == 0) (filts inCh start idx) (filts inCh start (idx + 1))
    (numberOfIcoVertices (n - idx)) (numberOfIcoVertices (n - idx + 1))
    (numberOfIcoVertices (n - idx)) s

/-- The encoder loop of `SphericalUNet.forward`: apply `count` consecutive
down blocks starting at block index `idx`, collecting every block output (the
`encoder_outs` list, in finest-to-coarsest order). -/
def encoderShapes (n inCh start : ℕ) : ℕ → ℕ → Shape → Option (Shape × List Shape)
  | _, 0, s => some (s, [])
  | idx, count + 1, s =>
    (downShapeAt n inCh start idx s).bind fun s1 =>
    (encoderShapes n inCh start (idx + 1) count s1).map fun p => (p.1, s1 :: p.2)

/-- Shape behaviour of the decoder `UpBlock` number `cnt` (1-based), wired as
in `SphericalUNet.__init__`: it maps `filts[depth - cnt + 1]` to
`filts[depth - cnt]` channels, up-samples from order `n - depth + cnt` to
order `n - depth + cnt + 1` and convolves with the neighbor table of the
finer order. -/
def upShapeAt (n depth inCh start cnt : ℕ) (skip s : Shape) : Option Shape :=
  upBlockShape (filts inCh start (depth - cnt + 1)) (filts inCh start (depth - cnt))
    (numberOfIcoVertices (n - depth + cnt + 1))
    (numberOfIcoVertices (n - depth + cnt))
    (numberOfIcoVertices (n - depth + cnt + 1)) s skip

/-- The decoder loop of `SphericalUNet.forward`: up block `cnt` consumes the
next recorded skip connection; the loop runs once per remaining skip, exactly
as the Python loop runs `depth - 1` times over the reversed `encoder_outs`. -/
def decoderShapes (n depth inCh start : ℕ) : ℕ → List Shape → Shape → Option Shape
  | _, [], s => some s
  | cnt, skip :: rest, s =>
    (upShapeAt n depth inCh start cnt skip s).bind
      (decoderShapes n depth inCh start (cnt + 1) rest)

/-- Shape behaviour of the final shared linear projection of
`SphericalUNet.forward`: permute, flatten the vertex dimension into the batch
dimension, apply `nn.Linear(filts[1], out_channels)`, and restore the layout.
It requires `filts[1]` input channels and `in_vertices` vertices. -/
def fcShape (inFeatures outFeatures inV : ℕ) (s : Shape) : Option Shape :=
  if s.chans = inFeatures ∧ s.verts = inV then some ⟨s.batch, outFeatures, inV⟩
  else none

/-- The body of `SphericalUNet.forward` after the input contract check:
encoder loop collecting `encoder_outs`, reversal, decoder loop over the
reversed skips (the first element of the reversed list is the decoder's
running input, not a skip), final linear projection. -/
def sphericalUNetBody (n depth inCh outCh start : ℕ) (s : Shape) : Option Shape :=
  (encoderShapes n inCh start 0 depth s).bind fun p =>
  (decoderShapes n depth inCh start 1 (p.2.reverse.drop 1) p.1).bind fun x =>
  fcShape (filts inCh start 1) outCh (numberOfIcoVertices n) x

/-- Model of `SphericalUNet.forward`, parameterised over the part of the forward pass
that follows the input contract check: the source first compares `x.size(2)`
with `self.in_vertices` and raises `RuntimeError` on mismatch, and only then
runs the down blocks, up blocks and the linear layer (`rest`). -/
def sphericalUNetForwardWith (inOrder : ℕ) (rest : Shape → Option Shape)
    (s : Shape) : Except PyErr Shape :=
  if s.verts ≠ numberOfIcoVertices inOrder then
    .error (.runtimeError "Input data must be projected on an icosahedron of the configured input order.")
  else
    match rest s with
    | some out => .ok out
    | none => .error .shapeMismatch

/-- Model of `SphericalUNet.forward` of a model built with input order `n`, `depth`
layers, `inCh`/`outCh` channels and `start` starting filters, at shape
level. -/
def sphericalUNetForwardShape (n depth inCh outCh start : ℕ) (s : Shape) :
    Except PyErr Shape :=
  sphericalUNetForwardWith n (sphericalUNetBody n depth inCh outCh start) s

/-- Python's `int()` conversion: truncation toward zero. -/
def pyInt (q : ℚ) : ℤ := if 0 ≤ q then ⌊q⌋ else ⌈q⌉

/-- The ring depth computed in `SurfBlur.__init__`:
`depth = max(1, int(2 * self.sigma + 0.5))`. -/
def surfBlurDepth (sigma : ℚ) : ℤ := max 1 (pyInt (2 * sigma + 1 / 2))

/-- The `positions` array of `SurfBlur.__init__`:
`[0] + concat([ring] * (6 * ring) for ring in 1..depth)`, i.e. the ring
distance of each neighbor slot of the flattened depth-`depth` neighbor
table (center slot first). -/
def blurPositions (depth : ℕ) : List ℕ :=
  0 :: (List.range depth).flatMap fun r => List.replicate (6 * (r + 1)) (r + 1)

/-- The un-normalized Gaussian kernel of `SurfBlur.run`:
`np.exp(-0.5 * (self.positions / self.sigma) ** 2)`. -/
noncomputable def gaussianKernelRaw (sigma : ℝ) (depth : ℕ) : List ℝ :=
  (blurPositions depth).map fun p => Real.exp (-(1 / 2) * ((p : ℝ) / sigma) ^ 2)

/-- The normalized Gaussian kernel of `SurfBlur.run`:
`gaussian_kernel / gaussian_kernel.sum()`. -/
noncomputable def gaussianKernel (sigma : ℝ) (depth : ℕ) : List ℝ :=
  (gaussianKernelRaw sigma depth).map fun w => w / (gaussianKernelRaw sigma depth).sum

/-- Python's `x.permute(0, 2, 1)` on a `batch x channels x vertices` tensor. -/
def permute021 {B C V : ℕ} (x : Fin B → Fin C → Fin V → ℚ) :
    Fin B → Fin V → Fin C → ℚ := fun b v c => x b c v

/-- Python's `x.reshape(n_samples * in_vertices, filts[1])` on a
`batch x vertices x channels` tensor: row `i` is row `i % V` of batch element
`i / V`. -/
def flattenBV {B V C : ℕ} (y : Fin B → Fin V → Fin C → ℚ) :
    Fin (B * V) → Fin C → ℚ := fun i c =>
  y ⟨i.val / V, Nat.div_lt_of_lt_mul (Nat.mul_comm B V ▸ i.isLt)⟩
    ⟨i.val % V, by
      have hi := i.isLt
      have hV : 0 < V := by
        by_contra hV0
        push_neg at hV0
        have hz : V = 0 := Nat.le_zero.mp hV0
        subst hz
        simp at hi
      exact Nat.mod_lt _ hV⟩ c

/-- Modelled from the spec: `nn.Linear(filts[1], out_channels)` (external
neural primitive) applied to one feature row: `z ↦ w z + bias`. -/
def linearMap {Cin Cout : ℕ} (w : Fin Cout → Fin Cin → ℚ) (bias : Fin Cout → ℚ)
    (z : Fin Cin → ℚ) : Fin Cout → ℚ :=
  fun o => (∑ c, w o c * z c) + bias o

/-- Python's `x.view(n_samples, in_vertices, out_channels)`: inverse of the flattening,
batch element `b` / vertex `v` reads flattened row `b * V + v`. -/
def unflattenBV {B V O : ℕ} (z : Fin (B * V) → Fin O → ℚ) :
    Fin B → Fin V → Fin O → ℚ := fun b v o =>
  z ⟨b.val * V + v.val, by
    have h1 : b.val * V + v.val < b.val * V + V := Nat.add_lt_add_left v.isLt _
    have h2 : b.val * V + V = (b.val + 1) * V := (Nat.succ_mul b.val V).symm
    exact lt_of_lt_of_le (h2 ▸ h1) (Nat.mul_le_mul_right V b.isLt)⟩ o

/-- The final stage of `SphericalUNet.forward` as implemented: permute the
vertex dimension next to the batch dimension, flatten both into one row
dimension, apply the shared linear layer to every row, restore the
`batch x vertices x channels` layout and permute back. -/
def sphericalUNetFc {B C V O : ℕ} (w : Fin O → Fin C → ℚ) (bias : Fin O → ℚ)
    (x : Fin B → Fin C → Fin V → ℚ) : Fin B → Fin O → Fin V → ℚ :=
  fun b o v =>
    unflattenBV (fun i => linearMap w bias (flattenBV (permute021 x) i)) b v o

/-- Modelled from the spec: the naive per-vertex application of the same
shared linear map, applied independently to every vertex's feature vector. -/
def vertexwiseLinear {B C V O : ℕ} (w : Fin O → Fin C → ℚ) (bias : Fin O → ℚ)
    (x : Fin B → Fin C → Fin V → ℚ) : Fin B → Fin O → Fin V → ℚ :=
  fun b o v => linearMap w bias (fun c => x b c v) o

/-- Modelled from the spec: `surfify.utils.find_neighbors(vertex, ring_count,
neighbor_table)` is outside `src/`; per the spec it returns the flat list of
all vertices within `ring_count` rings (mesh-edge hops) of the given vertex.
Here it is computed as the `ring_count`-fold neighbor expansion of the
singleton `{vertex}` over the neighbor table `neighs`. -/
def findNeighbors {N : ℕ} (neighs : Fin N → Finset (Fin N)) (vertex : Fin N) :
    ℕ → Finset (Fin N)
  | 0 => {vertex}
  | n + 1 =>
    findNeighbors neighs vertex n ∪ (findNeighbors neighs vertex n).biUnion neighs

/-- Model of `SurfCutOut.run`: for each of the `n_patches` iterations the randomness
supplies a drawn vertex and a drawn ring count (here the `draws` list, one
pair per iteration, mirroring `np.random.randint`); the iteration sets every
vertex of `find_neighbors(random_node, random_size, self.neighs)` to
`self.replacement_value`. -/
def surfCutOutRun {N : ℕ} (neighs : Fin N → Finset (Fin N)) (replacement : ℚ)
    (draws : List (Fin N × ℕ)) (data : Fin N → ℚ) : Fin N → ℚ :=
  draws.foldl
    (fun d p => fun v => if v ∈ findNeighbors neighs p.1 p.2 then replacement else d v)
    data

/-- A triangle mesh tabletop example: three mutually adjacent vertices. -/
def triangleNeighs : Fin 3 → Finset (Fin 3) := fun v => Finset.univ.erase v

/-- Model of `SurfNoise.run` on the value level: `data += np.random.normal(0, sigma,
len(data))` adds the drawn noise vector elementwise (the noise vector is the
explicit `noise` argument, mirroring the random draw). -/
def surfNoiseData {N : ℕ} (noise : Fin N → ℚ) (data : Fin N → ℚ) : Fin N → ℚ :=
  fun v => data v + noise v

/-- A heap mapping array references to array contents, for the aliasing
claims: a NumPy array passed to `run` is a reference into the caller's
store. -/
def Heap (N : ℕ) := ℕ → Fin N → ℚ

/-- Model of `SurfCutOut.run` at the heap level: `data[patch_indices] =
self.replacement_value` writes through the caller's reference (fancy-index
assignment mutates the buffer in place), and `return data` returns the very
same reference, so the call maps `(ref, heap)` to `(ref, heap[ref ↦ ablated
contents])` and touches no other reference. -/
def surfCutOutRunRef {N : ℕ} (neighs : Fin N → Finset (Fin N))
    (replacement : ℚ) (draws : List (Fin N × ℕ)) (ref : ℕ) (h : Heap N) :
    ℕ × Heap N :=
  (ref, Function.update h ref (surfCutOutRun neighs replacement draws (h ref)))

/-- Model of `SurfNoise.run` at the heap level: `data += noise` is an in-place
augmented assignment on the NumPy array behind the caller's reference, and
`return data` returns the very same reference. -/
def surfNoiseRunRef {N : ℕ} (noise : Fin N → ℚ) (ref : ℕ) (h : Heap N) :
    ℕ × Heap N :=
  (ref, Function.update h ref (surfNoiseData noise (h ref)))

/-- A concrete heap over the triangle mesh: every reference holds the
all-ones array. -/
def onesHeap : Heap 3 := fun _ _ => 1

/-- A concrete all-ones noise vector on the triangle mesh. -/
def onesNoise : Fin 3 → ℚ := fun _ => 1

/-- The reversed prefix of the encoder outputs consumed by the decoder:
`revOuts m = [o (m-1), ..., o 0]` where `o j` is the shape of the output of
down block `j`. -/
def revOuts (inCh start n b : ℕ) : ℕ → List Shape
  | 0 => []
  | m + 1 =>
    ⟨b, filts inCh start (m + 1), numberOfIcoVertices (n - m)⟩ ::
      revOuts inCh start n b m

/-- The `encoder_outs` list produced by down blocks `idx .. idx + count - 1`:
the output of block `j` has `filts (j + 1)` channels at icosahedron order
`n - j`. -/
def encOuts (inCh start n b idx : ℕ) : ℕ → List Shape
  | 0 => []
  | count + 1 =>
    ⟨b, filts inCh start (idx + 1), numberOfIcoVertices (n - idx)⟩ ::
      encOuts inCh start n b (idx + 1) count

/-- The external geometric primitives of the spec's interface section
(`icosahedron`, `neighbors`, `neighbors_rec`, `downsample`, `interpolate`,
all outside `src/`), as abstract parameters over an abstract array type `α`:
`icosahedron order` returns `(vertices, triangles)`; `neighbors vertices
triangles depth` returns the flattened depth-ring neighbor table (the
source's `np.asarray(list(neighs.values()))` is absorbed); `neighborsRec
vertices triangles size zoom` returns the `(neighbor, weight)` pair used by
the `repa` mode; `downsample fine coarse` returns the downsampling index map;
`interpolate coarse fine fineTriangles` returns the flattened ordered list of
upsampling neighbor indices (the source's `np.asarray(list(
up_indices.values()))` is absorbed). -/
structure GeoPrims (α : Type) where
  icosahedron : ℤ → α × α
  neighbors : α → α → ℕ → α
  neighborsRec : α → α → ℕ → ℕ → α × α
  downsample : α → α → α
  interpolate : α → α → α → α

/-- The `Ico` namedtuple of `surfify/models/unet.py`: per-order record of the
mesh hierarchy.  `convNeighborIndices` is either a plain neighbor-index array
(`1ring`/`2ring`) or an `(indices, weights)` pair (`repa`). -/
structure IcoRec (α : Type) where
  order : ℤ
  vertices : α
  triangles : α
  neighborIndices : α
  downIndices : Option α
  upIndices : Option α
  convNeighborIndices : α ⊕ (α × α)

/-- The `self.ico` dictionary, keyed by icosahedron order. -/
def IcoDict (α : Type) := ℤ → Option (IcoRec α)

/-- Lookup `self.ico[order]`: a missing key raises `KeyError`. -/
def icoLookup {α : Type} (d : IcoDict α) (k : ℤ) : Except PyErr (IcoRec α) :=
  match d k with
  | some r => .ok r
  | none => .error .keyError

/-- Assignment `self.ico[order] = record`. -/
def icoInsert {α : Type} (d : IcoDict α) (k : ℤ) (r : IcoRec α) : IcoDict α :=
  Function.update d k (some r)

/-- A Python `for order in ...:` loop whose body may raise, threading the
`self.ico` dictionary. -/
def foldOrdersM {α : Type} (f : ℤ → IcoDict α → Except PyErr (IcoDict α)) :
    List ℤ → IcoDict α → Except PyErr (IcoDict α)
  | [], d => .ok d
  | o :: rest, d => (f o d).bind (foldOrdersM f rest)

/-- Python's `range(1, in_order + 1)` as the ascending list `[1, ..., in_order]`. -/
def ordersAsc : ℕ → List ℤ
  | 0 => []
  | n + 1 => ordersAsc n ++ [(n : ℤ) + 1]

/-- Python's `range(in_order, 1, -1)` as the descending list `[in_order, ..., 2]`. -/
def ordersDesc : ℕ → List ℤ
  | 0 => []
  | 1 => []
  | n + 2 => ((n : ℤ) + 2) :: ordersDesc (n + 1)

/-- Python's `range(1, in_order)` as the ascending list `[1, ..., in_order - 1]`. -/
def ordersUp : ℕ → List ℤ
  | 0 => []
  | 1 => []
  | n + 2 => ordersUp (n + 1) ++ [(n : ℤ) + 1]

/-- One iteration of the first `__init__` loop: build the order-`order` `Ico`
record (vertices, triangles, depth-1 neighbor table, `conv_neighbor_indices`
per the convolution mode) with `down_indices=None`, `up_indices=None`; an
unsupported convolution mode raises `ValueError` inside the loop body. -/
def buildIcoEntry {α : Type} (g : GeoPrims α) (convMode : String) (order : ℤ)
    (d : IcoDict α) : Except PyErr (IcoDict α) :=
  let vt := g.icosahedron order
  let neighs := g.neighbors vt.1 vt.2 1
  (if convMode = "1ring" then
      (.ok (Sum.inl neighs) : Except PyErr (α ⊕ (α × α)))
   else if convMode = "2ring" then .ok (Sum.inl (g.neighbors vt.1 vt.2 2))
   else if convMode = "repa" then .ok (Sum.inr (g.neighborsRec vt.1 vt.2 5 5))
   else .error (.valueError "Unexptected convolution mode.")).map
    fun conv => icoInsert d order ⟨order, vt.1, vt.2, neighs, none, none, conv⟩

/-- One iteration of the second `__init__` loop:
`self.ico[order] = self.ico[order]._replace(down_indices=downsample(
self.ico[order].vertices, self.ico[order - 1].vertices))`. -/
def setDownIndices {α : Type} (g : GeoPrims α) (order : ℤ) (d : IcoDict α) :
    Except PyErr (IcoDict α) :=
  (icoLookup d order).bind fun r =>
  (icoLookup d (order - 1)).bind fun rPrev =>
  .ok (icoInsert d order
    { r with downIndices := some (g.downsample r.vertices rPrev.vertices) })

/-- One iteration of the third `__init__` loop:
`self.ico[order] = self.ico[order]._replace(up_indices=interpolate(
self.ico[order].vertices, self.ico[order + 1].vertices,
self.ico[order + 1].triangles))` (flattened). -/
def setUpIndices {α : Type} (g : GeoPrims α) (order : ℤ) (d : IcoDict α) :
    Except PyErr (IcoDict α) :=
  (icoLookup d order).bind fun r =>
  (icoLookup d (order + 1)).bind fun rNext =>
  .ok (icoInsert d order
    { r with upIndices := some (g.interpolate r.vertices rNext.vertices rNext.triangles) })

/-- The mesh-hierarchy construction of `SphericalUNet.__init__`: first loop
builds the per-order records for orders `1 .. in_order`, second loop fills
`down_indices` for orders `in_order .. 2`, third loop fills `up_indices` for
orders `1 .. in_order - 1`. -/
def buildHierarchy {α : Type} (g : GeoPrims α) (convMode : String)
    (inOrder : ℕ) : Except PyErr (IcoDict α) :=
  (foldOrdersM (buildIcoEntry g convMode) (ordersAsc inOrder) fun _ => none).bind
    fun d1 =>
  (foldOrdersM (setDownIndices g) (ordersDesc inOrder) d1).bind fun d2 =>
  foldOrdersM (setUpIndices g) (ordersUp inOrder) d2

/-- What `DownBlock.__init__` stores (the conv/pool layers are external; the
record keeps the tables and channel counts they are constructed with). -/
structure DownBlockRec (α : Type) where
  first : Bool
  inCh : ℕ
  outCh : ℕ
  convNeighIndices : α ⊕ (α × α)
  downNeighIndices : Option α
  downIndices : Option α
  poolMode : String

/-- What `UpBlock.__init__` stores. -/
structure UpBlockRec (α : Type) where
  upMode : String
  inCh : ℕ
  outCh : ℕ
  convNeighIndices : α ⊕ (α × α)
  neighIndices : α
  upNeighIndices : Option α
  downIndices : Option α

/-- Model of `UpBlock.__init__`: dispatch on `up_mode`; the four supported modes build
their up-sampling layer, `else: raise ValueError("Invalid upsampling
method.")`. -/
def mkUpBlock {α : Type} (inCh outCh : ℕ) (convNeigh : α ⊕ (α × α))
    (neighIndices : α) (upNeighIndices : Option α) (downIndices : Option α)
    (upMode : String) : Except PyErr (UpBlockRec α) :=
  if upMode = "interp" ∨ upMode = "zeropad" ∨ upMode = "maxpad" ∨
      upMode = "transpose" then
    .ok ⟨upMode, inCh, outCh, convNeigh, neighIndices, upNeighIndices,
      downIndices⟩
  else .error (.valueError "Invalid upsampling method.")

/-- The `for idx in range(depth):` DownBlock loop of `__init__`, recursing on
the number of remaining blocks; block `idx` reads `self.ico[in_order - idx]`
and, when `idx ≠ 0`, `self.ico[in_order - idx + 1]` (each a potential
`KeyError`); the pool mode is `"max"` iff `up_mode == "maxpad"`. -/
def buildDownBlocks {α : Type} (d : IcoDict α) (inOrder : ℤ) (f : ℕ → ℕ)
    (upMode : String) : ℕ → ℕ → Except PyErr (List (DownBlockRec α))
  | _, 0 => .ok []
  | idx, count + 1 =>
    (icoLookup d (inOrder - idx)).bind fun r =>
    (if idx = 0 then .ok (none, none)
     else
       (icoLookup d (inOrder - idx + 1)).bind fun rUp =>
       .ok (some rUp.neighborIndices, rUp.downIndices)).bind fun p =>
    (buildDownBlocks d inOrder f upMode (idx + 1) count).map fun rest =>
      ⟨idx == 0, f idx, f (idx + 1), r.convNeighborIndices, p.1, p.2,
        if upMode = "maxpad" then "max" else "mean"⟩ :: rest

/-- The `for idx in range(depth - 1, 0, -1):` UpBlock loop of `__init__`,
recursing on `idx` with the threaded `order` variable; block `cnt` reads
`self.ico[order + 1]` and `self.ico[order]` (each a potential `KeyError`) and
builds an `UpBlock` (a potential `ValueError` on an invalid `up_mode`). -/
def buildUpBlocks {α : Type} (d : IcoDict α) (f : ℕ → ℕ) (upMode : String) :
    ℕ → ℤ → Except PyErr (List (UpBlockRec α))
  | 0, _ => .ok []
  | idx + 1, order =>
    (icoLookup d (order + 1)).bind fun rUp =>
    (icoLookup d order).bind fun r =>
    (mkUpBlock (f (idx + 2)) (f (idx + 1)) rUp.convNeighborIndices
      rUp.neighborIndices r.upIndices rUp.downIndices upMode).bind fun blk =>
    (buildUpBlocks d f upMode idx (order + 1)).map fun rest => blk :: rest

/-- The Python filter list
`self.filts = [in_channels] + [start_filts * 2 ** idx for idx in range(depth)]`. -/
def filtsList (inCh start depth : ℕ) : List ℕ :=
  inCh :: (List.range depth).map fun i => start * 2 ^ i

/-- Python list indexing: out of range raises `IndexError`. -/
def listGetE (l : List ℕ) (i : ℕ) : Except PyErr ℕ :=
  match l.get? i with
  | some v => .ok v
  | none => .error .indexError

/-- What `SphericalUNet.__init__` builds. -/
structure UNetRec (α : Type) where
  ico : IcoDict α
  downs : List (DownBlockRec α)
  ups : List (UpBlockRec α)
  fcIn : ℕ
  fcOut : ℕ

/-- Model of `SphericalUNet.__init__`: hierarchy construction, then the DownBlock
loop (block indices `0 .. depth - 1`), then the UpBlock loop (starting at the
threaded `order = in_order - depth + 1` with `depth - 1` iterations), then
`self.fc = nn.Sequential(nn.Linear(self.filts[1], out_channels))` (an
`IndexError` when `depth = 0`).  The block loops read `filts` through the
total function `filts`, which agrees with the Python list on every index the
loops use. -/
def sphericalUNetInit {α : Type} (g : GeoPrims α)
    (inOrder depth inCh outCh start : ℕ) (convMode upMode : String) :
    Except PyErr (UNetRec α) :=
  (buildHierarchy g convMode inOrder).bind fun ico =>
  (buildDownBlocks ico inOrder (filts inCh start) upMode 0 depth).bind
    fun downs =>
  (buildUpBlocks ico (filts inCh start) upMode (depth - 1)
      ((inOrder : ℤ) - depth + 1)).bind fun ups =>
  (listGetE (filtsList inCh start depth) 1).map fun f1 =>
  ⟨ico, downs, ups, f1, outCh⟩

/-- Trivial instantiation of the geometric primitives over `Unit` arrays,
for concrete evaluation. -/
def unitPrims : GeoPrims Unit :=
  ⟨fun _ => ((), ()), fun _ _ _ => (), fun _ _ _ _ => ((), ()),
    fun _ _ => (), fun _ _ _ => ()⟩

/-- Returns `true` iff the computation did not raise. -/
def exceptIsOk {ε β : Type} : Except ε β → Bool
  | .ok _ => true
  | .error _ => false

/-! ## Theorems -/

/-- C1: for every constructed SphericalUNet and every input tensor whose
vertex dimension (size at index 2) differs from
`number_of_ico_vertices(in_order)`, `SphericalUNet.forward` raises a
`RuntimeError` at the start of the forward pass, before any DownBlock,
UpBlock, or linear layer executes.  The remainder of the forward pass is
universally quantified (`rest`), so the error is raised whatever the layers
would compute; `sphericalUNetForwardShape` is literally an instance of
`sphericalUNetForwardWith`. -/
theorem forward_raises_on_vertex_mismatch (inOrder : ℕ)
    (rest : Shape → Option Shape) (s : Shape)
    (h : s.verts ≠ numberOfIcoVertices inOrder) :
    sphericalUNetForwardWith inOrder rest s =
      .error (.runtimeError "Input data must be projected on an icosahedron of the configured input order.") := by
  simp [sphericalUNetForwardWith, h]

/-- Witness for C1 at a concrete input: a tensor with 5 vertices fed to a
model configured for input order 1 (42 vertices). -/
theorem forward_raises_on_vertex_mismatch_witness :
    (5 : ℕ) ≠ numberOfIcoVertices 1 ∧
      sphericalUNetForwardWith 1 some ⟨1, 2, 5⟩ =
        .error (.runtimeError "Input data must be projected on an icosahedron of the configured input order.") :=
  ⟨by decide, forward_raises_on_vertex_mismatch 1 some ⟨1, 2, 5⟩ (by decide)⟩

/-- C10: the input contract check of `SphericalUNet.forward` inspects only the
vertex dimension: whenever the vertex count matches
`number_of_ico_vertices(in_order)` the check raises no contract error, in
particular for every channel count different from the configured
`in_channels`.  Whatever the rest of the forward pass does (`rest` is
universally quantified and can only produce `.ok` or the tensor engine's
`shapeMismatch`), the result is never the contract `RuntimeError`. -/
theorem forward_check_ignores_channels (inOrder inChannels : ℕ)
    (rest : Shape → Option Shape) (s : Shape)
    (hv : s.verts = numberOfIcoVertices inOrder)
    (hc : s.chans ≠ inChannels) :
    ∀ msg : String,
      sphericalUNetForwardWith inOrder rest s ≠ .error (.runtimeError msg) := by
  intro msg
  simp only [sphericalUNetForwardWith, hv, ne_eq, not_true_eq_false, if_false,
    ite_not]
  cases rest s with
  | some out => simp
  | none => simp

/-- Witness for C10 at a concrete input: input order 1 (42 vertices), a tensor
with 42 vertices but 7 channels while the model expects 2 channels. -/
theorem forward_check_ignores_channels_witness :
    (42 : ℕ) = numberOfIcoVertices 1 ∧ (7 : ℕ) ≠ 2 ∧
      ∀ msg : String,
        sphericalUNetForwardWith 1 some ⟨1, 7, 42⟩ ≠ .error (.runtimeError msg) :=
  ⟨by decide, by decide,
    forward_check_ignores_channels 1 2 some ⟨1, 7, 42⟩ (by decide) (by decide)⟩

/-- C5: for every SurfBlur instance built with standard deviation `sigma`
(and `neighs=None`, so that the neighbor table is built at this very depth),
the ring depth of the neighbor table used by the blur convolution equals
`max(1, round(2 * sigma))`, where `round` is rounding half up (for
non-negative `sigma`, `int(2 * sigma + 0.5)` is exactly `round(2 * sigma)`). -/
theorem surfBlur_depth_eq_round (sigma : ℚ) (h : 0 ≤ sigma) :
    surfBlurDepth sigma = max 1 (round (2 * sigma)) := by
  have h2 : (0 : ℚ) ≤ 2 * sigma + 1 / 2 := by linarith
  rw [surfBlurDepth, pyInt, if_pos h2, round_eq]

/-- Witness for C5 at `sigma = 5 / 4`: the computed depth is
`max 1 (round (5 / 2)) = 3`. -/
theorem surfBlur_depth_eq_round_witness :
    (0 : ℚ) ≤ 5 / 4 ∧ surfBlurDepth (5 / 4) = max 1 (round (2 * (5 / 4 : ℚ))) :=
  ⟨by norm_num, surfBlur_depth_eq_round (5 / 4) (by norm_num)⟩

theorem list_sum_map_div (l : List ℝ) (c : ℝ) :
    (l.map fun w => w / c).sum = l.sum / c := by
  induction l with
  | nil => simp
  | cons a t ih => simp [ih, add_div]

theorem gaussianKernelRaw_sum_pos (sigma : ℝ) (depth : ℕ) :
    0 < (gaussianKernelRaw sigma depth).sum := by
  apply List.sum_pos
  · intro w hw
    rw [gaussianKernelRaw, List.mem_map] at hw
    obtain ⟨p, _, rfl⟩ := hw
    exact Real.exp_pos _
  · simp [gaussianKernelRaw, blurPositions]

/-- C6: in `SurfBlur.run` the convolution kernel assigns to the slot of a
neighbor at ring distance `r` the weight `exp(-0.5 * (r / sigma) ^ 2)` divided
by the total over all slots (first conjunct: the normalized kernel is, slot by
slot, the exponential of the slot's ring distance divided by the total), and
the kernel weights, including the center slot at ring distance 0, sum to 1 for
any sigma (second conjunct). -/
theorem gaussianKernel_slots_and_sum (sigma : ℝ) (depth : ℕ) :
    gaussianKernel sigma depth =
      ((blurPositions depth).map fun r =>
        Real.exp (-(1 / 2) * ((r : ℝ) / sigma) ^ 2) /
          (gaussianKernelRaw sigma depth).sum) ∧
    (gaussianKernel sigma depth).sum = 1 := by
  have hpos := gaussianKernelRaw_sum_pos sigma depth
  constructor
  · rw [gaussianKernel, gaussianKernelRaw, List.map_map]
    rfl
  · rw [gaussianKernel, list_sum_map_div]
    exact div_self (ne_of_gt hpos)

/-- C8: the implementation of the final stage of `SphericalUNet.forward`
(flatten the vertex dimension into the batch dimension, apply the shared
linear layer, restore the batch/vertex layout) is equal, for every input
tensor, to the naive per-vertex application of the same linear map. -/
theorem sphericalUNetFc_eq_vertexwise {B C V O : ℕ} (w : Fin O → Fin C → ℚ)
    (bias : Fin O → ℚ) (x : Fin B → Fin C → Fin V → ℚ) :
    sphericalUNetFc w bias x = vertexwiseLinear w bias x := by
  funext b o v
  have hV : 0 < V := v.pos
  have hdiv : (b.val * V + v.val) / V = b.val := by
    rw [Nat.mul_comm b.val V, Nat.mul_add_div hV, Nat.div_eq_of_lt v.isLt,
      Nat.add_zero]
  have hmod : (b.val * V + v.val) % V = v.val := by
    rw [Nat.mul_comm b.val V, Nat.mul_add_mod, Nat.mod_eq_of_lt v.isLt]
  simp only [sphericalUNetFc, vertexwiseLinear, unflattenBV, linearMap,
    flattenBV, permute021]
  simp [hdiv, hmod]

/-- C7 counterexample: the claim states that for a field of all-ones, one
`SurfCutOut.run` call with `n_patches=1`, `patch_size=1`, `sigma=0` and
`replacement_value=0` zeroes a number of vertices equal to the patch size
used, which must lie in `[patch_size - sigma, patch_size + sigma] = [1, 1]`.
On the triangle mesh, with the drawn vertex 0 and the drawn size 1 (the only
value `np.random.randint(1, 2)` can draw), the run zeroes all 3 vertices, and
3 does not lie in `[1, 1]`: the zeroed count is the cardinality of the
ring-neighborhood, not the drawn patch-size parameter. -/
theorem surfCutOut_count_counterexample :
    (Finset.univ.filter fun v =>
        surfCutOutRun triangleNeighs 0 [(0, 1)] (fun _ => (1 : ℚ)) v = 0).card = 3 ∧
    ¬((1 - 0 : ℕ) ≤ 3 ∧ (3 : ℕ) ≤ 1 + 0) := by
  constructor
  · decide
  · decide

/-- C7 (amended): for a field of all-ones and a SurfCutOut with `n_patches=1`
and `replacement_value=0`, when the drawn ring count lies in
`[patch_size - sigma, patch_size + sigma]` (as `np.random.randint(patch_size -
sigma, patch_size + sigma + 1)` guarantees), the number of zeroed vertices
after one `run` call equals the cardinality of the ring-neighborhood of the
drawn vertex at the drawn ring count (not the drawn count itself), and every
vertex outside that neighborhood still holds the value 1. -/
theorem surfCutOut_single_patch {N : ℕ} (neighs : Fin N → Finset (Fin N))
    (node : Fin N) (size patchSize sigma : ℕ)
    (hs : sigma ≤ patchSize)
    (h1 : patchSize - sigma ≤ size) (h2 : size ≤ patchSize + sigma) :
    (Finset.univ.filter fun v =>
        surfCutOutRun neighs 0 [(node, size)] (fun _ => (1 : ℚ)) v = 0).card =
      (findNeighbors neighs node size).card ∧
    ∀ v, v ∉ findNeighbors neighs node size →
      surfCutOutRun neighs 0 [(node, size)] (fun _ => (1 : ℚ)) v = 1 := by
  have hrun : ∀ v, surfCutOutRun neighs 0 [(node, size)] (fun _ => (1 : ℚ)) v =
      if v ∈ findNeighbors neighs node size then 0 else 1 := fun v => rfl
  constructor
  · congr 1
    ext v
    simp only [Finset.mem_filter, Finset.mem_univ, true_and, hrun]
    by_cases hv : v ∈ findNeighbors neighs node size
    · simp [hv]
    · simp [hv]
  · intro v hv
    rw [hrun, if_neg hv]

/-- Witness for C7 (amended) on the triangle mesh at the drawn pair `(0, 1)`
with `patch_size = 1`, `sigma = 0`. -/
theorem surfCutOut_single_patch_witness :
    ((0 : ℕ) ≤ 1 ∧ (1 - 0 : ℕ) ≤ 1 ∧ (1 : ℕ) ≤ 1 + 0) ∧
    ((Finset.univ.filter fun v =>
        surfCutOutRun triangleNeighs 0 [(0, 1)] (fun _ => (1 : ℚ)) v = 0).card =
      (findNeighbors triangleNeighs 0 1).card ∧
    ∀ v, v ∉ findNeighbors triangleNeighs 0 1 →
      surfCutOutRun triangleNeighs 0 [(0, 1)] (fun _ => (1 : ℚ)) v = 1) :=
  ⟨⟨by decide, by decide, by decide⟩,
    surfCutOut_single_patch triangleNeighs 0 1 1 0 (by decide) (by decide)
      (by decide)⟩

/-- C9: `SurfCutOut.run` and `SurfNoise.run` mutate the caller's input array
in place and return that same array object: each call returns the reference
it was passed, the heap cell behind that reference now holds the perturbed
values, and every other heap cell is untouched — so the original input values
survive in no caller-visible location. -/
theorem run_mutates_in_place {N : ℕ} (neighs : Fin N → Finset (Fin N))
    (replacement : ℚ) (draws : List (Fin N × ℕ)) (noise : Fin N → ℚ)
    (ref : ℕ) (h : Heap N) :
    (surfCutOutRunRef neighs replacement draws ref h).1 = ref ∧
    (surfCutOutRunRef neighs replacement draws ref h).2 =
      Function.update h ref (surfCutOutRun neighs replacement draws (h ref)) ∧
    (∀ s, s ≠ ref → (surfCutOutRunRef neighs replacement draws ref h).2 s = h s) ∧
    (surfNoiseRunRef noise ref h).1 = ref ∧
    (surfNoiseRunRef noise ref h).2 =
      Function.update h ref (surfNoiseData noise (h ref)) ∧
    (∀ s, s ≠ ref → (surfNoiseRunRef noise ref h).2 s = h s) := by
  refine ⟨rfl, rfl, fun s hs => ?_, rfl, rfl, fun s hs => ?_⟩
  · exact Function.update_noteq hs _ h
  · exact Function.update_noteq hs _ h

/-- Witness for C9 at a concrete heap: one patch on the triangle mesh, noise
vector `(1, 1, 1)`, reference 0, heap holding the all-ones array at every
reference. -/
theorem run_mutates_in_place_witness :
    (surfCutOutRunRef triangleNeighs 0 [(0, 1)] 0 onesHeap).1 = 0 ∧
    (surfCutOutRunRef triangleNeighs 0 [(0, 1)] 0 onesHeap).2 =
      Function.update onesHeap 0
        (surfCutOutRun triangleNeighs 0 [(0, 1)] (onesHeap 0)) ∧
    (∀ s, s ≠ 0 →
      (surfCutOutRunRef triangleNeighs 0 [(0, 1)] 0 onesHeap).2 s =
        onesHeap s) ∧
    (surfNoiseRunRef onesNoise 0 onesHeap).1 = 0 ∧
    (surfNoiseRunRef onesNoise 0 onesHeap).2 =
      Function.update onesHeap 0 (surfNoiseData onesNoise (onesHeap 0)) ∧
    (∀ s, s ≠ 0 → (surfNoiseRunRef onesNoise 0 onesHeap).2 s = onesHeap s) :=
  run_mutates_in_place triangleNeighs 0 [(0, 1)] onesNoise 0 onesHeap

theorem filts_succ (inCh start j : ℕ) (h : 1 ≤ j) :
    filts inCh start (j + 1) = 2 * filts inCh start j := by
  have hj : j ≠ 0 := by omega
  have hj1 : j - 1 + 1 = j := by omega
  simp only [filts, if_neg (Nat.succ_ne_zero j), if_neg hj, Nat.add_sub_cancel]
  rw [← hj1, Nat.add_sub_cancel, pow_succ]
  ring

theorem downShapeAt_first (n inCh start b : ℕ) :
    downShapeAt n inCh start 0 ⟨b, inCh, numberOfIcoVertices n⟩ =
      some ⟨b, filts inCh start 1, numberOfIcoVertices n⟩ := by
  simp [downShapeAt, downBlockShape, convShape, batchNormShape, leakyReLUShape,
    filts]

theorem downShapeAt_step (n inCh start idx b : ℕ) (h : 1 ≤ idx) :
    downShapeAt n inCh start idx
        ⟨b, filts inCh start idx, numberOfIcoVertices (n - idx + 1)⟩ =
      some ⟨b, filts inCh start (idx + 1), numberOfIcoVertices (n - idx)⟩ := by
  have hb : (idx == 0) = false := beq_eq_false_iff_ne.mpr (by omega)
  simp [downShapeAt, downBlockShape, hb, icoPoolShape, convShape,
    batchNormShape, leakyReLUShape]

theorem encoderShapes_spec (n inCh start : ℕ) :
    ∀ count idx b, 1 ≤ idx → idx + count ≤ n →
      encoderShapes n inCh start idx count
          ⟨b, filts inCh start idx, numberOfIcoVertices (n - idx + 1)⟩ =
        some (⟨b, filts inCh start (idx + count),
                numberOfIcoVertices (n + 1 - (idx + count))⟩,
          encOuts inCh start n b idx count) := by
  intro count
  induction count with
  | zero =>
    intro idx b h1 h2
    simp only [encoderShapes, encOuts, Nat.add_zero]
    have hv : n - idx + 1 = n + 1 - idx := by omega
    rw [hv]
  | succ count ih =>
    intro idx b h1 h2
    rw [encoderShapes, downShapeAt_step n inCh start idx b h1, Option.some_bind]
    have hv : n - idx = n - (idx + 1) + 1 := by omega
    rw [show (⟨b, filts inCh start (idx + 1), numberOfIcoVertices (n - idx)⟩ : Shape) =
        ⟨b, filts inCh start (idx + 1), numberOfIcoVertices (n - (idx + 1) + 1)⟩ from by
      rw [hv]]
    rw [ih (idx + 1) b (by omega) (by omega), Option.map_some', ← hv]
    rw [show idx + 1 + count = idx + (count + 1) from by omega]
    rfl

theorem encoderShapes_full (n inCh start depth b : ℕ) (hd : 1 ≤ depth)
    (hn : depth ≤ n) :
    encoderShapes n inCh start 0 depth ⟨b, inCh, numberOfIcoVertices n⟩ =
      some (⟨b, filts inCh start depth, numberOfIcoVertices (n + 1 - depth)⟩,
        encOuts inCh start n b 0 depth) := by
  obtain ⟨d, rfl⟩ : ∃ d, depth = d + 1 := ⟨depth - 1, by omega⟩
  rw [encoderShapes, downShapeAt_first n inCh start b, Option.some_bind,
    Nat.zero_add,
    show (⟨b, filts inCh start 1, numberOfIcoVertices n⟩ : Shape) =
      ⟨b, filts inCh start 1, numberOfIcoVertices (n - 1 + 1)⟩ from by
        rw [show n - 1 + 1 = n from by omega],
    encoderShapes_spec n inCh start d 1 b (by omega) (by omega),
    Option.map_some', show n - 1 + 1 = n from by omega,
    show 1 + d = d + 1 from by omega]
  rfl

theorem encOuts_reverse (inCh start n b : ℕ) :
    ∀ count idx, (encOuts inCh start n b idx count).reverse ++
        revOuts inCh start n b idx =
      revOuts inCh start n b (idx + count) := by
  intro count
  induction count with
  | zero => intro idx; simp [encOuts]
  | succ count ih =>
    intro idx
    rw [encOuts, List.reverse_cons, List.append_assoc, List.singleton_append]
    rw [show (⟨b, filts inCh start (idx + 1), numberOfIcoVertices (n - idx)⟩ : Shape) ::
        revOuts inCh start n b idx = revOuts inCh start n b (idx + 1) from rfl]
    rw [ih (idx + 1), show idx + 1 + count = idx + (count + 1) from by omega]

theorem decoderShapes_spec (n depth inCh start : ℕ) (hn : depth ≤ n) :
    ∀ m b, m + 1 ≤ depth →
      decoderShapes n depth inCh start (depth - m) (revOuts inCh start n b m)
          ⟨b, filts inCh start (m + 1), numberOfIcoVertices (n - m)⟩ =
        some ⟨b, filts inCh start 1, numberOfIcoVertices n⟩ := by
  intro m
  induction m with
  | zero =>
    intro b _
    simp [revOuts, decoderShapes]
  | succ m ih =>
    intro b hm
    rw [revOuts, decoderShapes, upShapeAt]
    rw [show depth - (depth - (m + 1)) + 1 = m + 2 from by omega,
      show depth - (depth - (m + 1)) = m + 1 from by omega,
      show n - depth + (depth - (m + 1)) + 1 = n - m from by omega,
      show n - depth + (depth - (m + 1)) = n - (m + 1) from by omega]
    have hf : filts inCh start (m + 1) + filts inCh start (m + 1) =
        filts inCh start (m + 2) := by
      rw [filts_succ inCh start (m + 1) (by omega)]
      ring
    simp only [upBlockShape, icoUpShape, catShape, convShape, batchNormShape,
      leakyReLUShape, Option.some_bind, hf, and_self, and_true, true_and,
      eq_self_iff_true, if_true]
    rw [show depth - (m + 1) + 1 = depth - m from by omega]
    exact ih b (by omega)

/-- C2: for every constructed SphericalUNet (construction succeeds only when
`1 ≤ depth ≤ in_order`) and every correctly shaped input of shape
`(batch, in_channels, V)` with `V = number_of_ico_vertices(in_order)`,
`SphericalUNet.forward` returns a tensor of shape
`(batch, out_channels, V)` — the output is at the original input
resolution. -/
theorem forward_output_shape (n depth inCh outCh start b : ℕ)
    (hd : 1 ≤ depth) (hn : depth ≤ n) :
    sphericalUNetForwardShape n depth inCh outCh start
        ⟨b, inCh, numberOfIcoVertices n⟩ =
      .ok ⟨b, outCh, numberOfIcoVertices n⟩ := by
  obtain ⟨d, rfl⟩ : ∃ d, depth = d + 1 := ⟨depth - 1, by omega⟩
  have hrev : (encOuts inCh start n b 0 (d + 1)).reverse =
      revOuts inCh start n b (d + 1) := by
    have h := encOuts_reverse inCh start n b (d + 1) 0
    rw [show revOuts inCh start n b 0 = [] from rfl, List.append_nil,
      Nat.zero_add] at h
    exact h
  have hdec := decoderShapes_spec n (d + 1) inCh start hn d b (by omega)
  rw [show d + 1 - d = 1 from by omega] at hdec
  rw [sphericalUNetForwardShape, sphericalUNetForwardWith, if_neg (by simp),
    sphericalUNetBody, encoderShapes_full n inCh start (d + 1) b hd hn,
    Option.some_bind]
  dsimp only
  rw [hrev,
    show revOuts inCh start n b (d + 1) =
      (⟨b, filts inCh start (d + 1), numberOfIcoVertices (n - d)⟩ : Shape) ::
        revOuts inCh start n b d from rfl,
    List.drop_succ_cons, List.drop_zero,
    show n + 1 - (d + 1) = n - d from by omega, hdec, Option.some_bind,
    fcShape, if_pos ⟨rfl, rfl⟩]

/-- Witness for C2 at the docstring configuration: `in_order = 2`,
`depth = 2`, `in_channels = 2`, `out_channels = 4`, `start_filts = 8`, batch
10: the output shape is `(10, 4, 162)`. -/
theorem forward_output_shape_witness :
    ((1 : ℕ) ≤ 2 ∧ (2 : ℕ) ≤ 2) ∧
      sphericalUNetForwardShape 2 2 2 4 8 ⟨10, 2, numberOfIcoVertices 2⟩ =
        .ok ⟨10, 4, numberOfIcoVertices 2⟩ :=
  ⟨⟨by decide, by decide⟩,
    forward_output_shape 2 2 2 4 8 10 (by decide) (by decide)⟩

theorem exceptOk_bind {ε β γ : Type} (a : β) (f : β → Except ε γ) :
    (Except.ok a).bind f = f a := rfl

theorem exceptError_bind {ε β γ : Type} (e : ε) (f : β → Except ε γ) :
    (Except.error e : Except ε β).bind f = Except.error e := rfl

theorem foldOrdersM_append {α : Type}
    (f : ℤ → IcoDict α → Except PyErr (IcoDict α)) :
    ∀ (L1 L2 : List ℤ) (d : IcoDict α),
      foldOrdersM f (L1 ++ L2) d = (foldOrdersM f L1 d).bind (foldOrdersM f L2) := by
  intro L1
  induction L1 with
  | nil => intro L2 d; rfl
  | cons o rest ih =>
    intro L2 d
    rw [List.cons_append, foldOrdersM, foldOrdersM]
    cases f o d with
    | ok d1 => rw [exceptOk_bind, exceptOk_bind, ih]
    | error e => rw [exceptError_bind, exceptError_bind, exceptError_bind]

theorem buildIcoEntry_ok {α : Type} (g : GeoPrims α) {convMode : String}
    (hm : convMode = "1ring" ∨ convMode = "2ring" ∨ convMode = "repa")
    (order : ℤ) (d : IcoDict α) :
    ∃ r : IcoRec α,
      buildIcoEntry g convMode order d = .ok (icoInsert d order r) ∧
        r.downIndices = none ∧ r.upIndices = none := by
  rcases hm with h | h | h <;> subst h
  · refine ⟨⟨order, (g.icosahedron order).1, (g.icosahedron order).2,
      g.neighbors (g.icosahedron order).1 (g.icosahedron order).2 1, none, none,
      Sum.inl (g.neighbors (g.icosahedron order).1 (g.icosahedron order).2 1)⟩,
      ?_, rfl, rfl⟩
    rfl
  · refine ⟨⟨order, (g.icosahedron order).1, (g.icosahedron order).2,
      g.neighbors (g.icosahedron order).1 (g.icosahedron order).2 1, none, none,
      Sum.inl (g.neighbors (g.icosahedron order).1 (g.icosahedron order).2 2)⟩,
      ?_, rfl, rfl⟩
    rfl
  · refine ⟨⟨order, (g.icosahedron order).1, (g.icosahedron order).2,
      g.neighbors (g.icosahedron order).1 (g.icosahedron order).2 1, none, none,
      Sum.inr (g.neighborsRec (g.icosahedron order).1 (g.icosahedron order).2 5 5)⟩,
      ?_, rfl, rfl⟩
    rfl

theorem buildIcoEntry_invalid {α : Type} (g : GeoPrims α) {convMode : String}
    (hm : ¬(convMode = "1ring" ∨ convMode = "2ring" ∨ convMode = "repa"))
    (order : ℤ) (d : IcoDict α) :
    buildIcoEntry g convMode order d =
      .error (.valueError "Unexptected convolution mode.") := by
  push_neg at hm
  simp [buildIcoEntry, hm.1, hm.2.1, hm.2.2, Except.map]

theorem phase1_spec {α : Type} (g : GeoPrims α) {convMode : String}
    (hm : convMode = "1ring" ∨ convMode = "2ring" ∨ convMode = "repa") :
    ∀ n : ℕ, ∃ d : IcoDict α,
      foldOrdersM (buildIcoEntry g convMode) (ordersAsc n) (fun _ => none) =
          .ok d ∧
        (∀ k : ℤ, (d k).isSome ↔ 1 ≤ k ∧ k ≤ (n : ℤ)) ∧
        (∀ k r, d k = some r → r.downIndices = none ∧ r.upIndices = none) := by
  intro n
  induction n with
  | zero =>
    refine ⟨fun _ => none, rfl, fun k => ?_, fun k r hk => by simp at hk⟩
    simp only [Option.isSome_none, Bool.false_eq_true, false_iff,
      Nat.cast_zero]
    omega
  | succ n ih =>
    obtain ⟨dn, hfold, hdom, hrec⟩ := ih
    obtain ⟨r, hentry, hdown, hup⟩ :=
      buildIcoEntry_ok g hm ((n : ℤ) + 1) dn
    refine ⟨icoInsert dn ((n : ℤ) + 1) r, ?_, ?_, ?_⟩
    · rw [ordersAsc, foldOrdersM_append, hfold, exceptOk_bind, foldOrdersM,
        hentry, exceptOk_bind, foldOrdersM]
    · intro k
      rw [icoInsert, Function.update_apply]
      by_cases hk : k = (n : ℤ) + 1
      · subst hk
        rw [if_pos rfl]
        push_cast
        exact ⟨fun _ => ⟨by omega, by omega⟩, fun _ => rfl⟩
      · rw [if_neg hk, hdom k]
        push_cast
        omega
    · intro k rr hk
      rw [icoInsert, Function.update_apply] at hk
      by_cases hke : k = (n : ℤ) + 1
      · rw [if_pos hke] at hk
        cases hk
        exact ⟨hdown, hup⟩
      · rw [if_neg hke] at hk
        exact hrec k rr hk

theorem phase2_spec {α : Type} (g : GeoPrims α) :
    ∀ (m : ℕ) (d : IcoDict α),
      (∀ k : ℤ, 1 ≤ k → k ≤ (m : ℤ) → (d k).isSome = true) →
      ∃ d2, foldOrdersM (setDownIndices g) (ordersDesc m) d = .ok d2 ∧
        (∀ k, (d2 k).isSome = (d k).isSome) ∧
        (∀ k r2, d2 k = some r2 → ∃ r, d k = some r ∧
          r2.upIndices = r.upIndices ∧
          (r2.downIndices.isSome = true ↔
            ((2 ≤ k ∧ k ≤ (m : ℤ)) ∨ r.downIndices.isSome = true))) := by
  intro m
  induction m using Nat.strong_induction_on with
  | _ m ih =>
    rcases m with _ | _ | m
    · intro d _
      refine ⟨d, rfl, fun k => rfl, fun k r2 h2 => ⟨r2, h2, rfl, ?_⟩⟩
      constructor
      · exact fun h => Or.inr h
      · rintro (⟨hk1, hk2⟩ | h)
        · exact absurd hk2 (by push_cast; omega)
        · exact h
    · intro d _
      refine ⟨d, rfl, fun k => rfl, fun k r2 h2 => ⟨r2, h2, rfl, ?_⟩⟩
      constructor
      · exact fun h => Or.inr h
      · rintro (⟨hk1, hk2⟩ | h)
        · exact absurd hk2 (by push_cast; omega)
        · exact h
    · intro d hdom
      have h1 : (d ((m : ℤ) + 2)).isSome = true :=
        hdom _ (by omega) (by push_cast; omega)
      have h2 : (d ((m : ℤ) + 1)).isSome = true :=
        hdom _ (by omega) (by push_cast; omega)
      obtain ⟨r, hr⟩ := Option.isSome_iff_exists.mp h1
      obtain ⟨rp, hrp⟩ := Option.isSome_iff_exists.mp h2
      have hbody : setDownIndices g ((m : ℤ) + 2) d =
          .ok (icoInsert d ((m : ℤ) + 2)
            { r with downIndices := some (g.downsample r.vertices rp.vertices) }) := by
        rw [setDownIndices, icoLookup, hr, exceptOk_bind,
          show (m : ℤ) + 2 - 1 = (m : ℤ) + 1 from by ring, icoLookup, hrp,
          exceptOk_bind]
      have hdom1 : ∀ k : ℤ, 1 ≤ k → k ≤ ((m + 1 : ℕ) : ℤ) →
          ((icoInsert d ((m : ℤ) + 2)
            { r with downIndices := some (g.downsample r.vertices rp.vertices) }) k).isSome = true := by
        intro k hk1 hk2
        rw [icoInsert, Function.update_apply]
        by_cases hke : k = (m : ℤ) + 2
        · rw [if_pos hke]; rfl
        · rw [if_neg hke]
          exact hdom k hk1 (by push_cast at hk2 ⊢; omega)
      obtain ⟨d2, hfold2, hdom2, hrec2⟩ := ih (m + 1) (by omega) _ hdom1
      refine ⟨d2, ?_, ?_, ?_⟩
      · rw [show ordersDesc (m + 2) = ((m : ℤ) + 2) :: ordersDesc (m + 1) from
          rfl, foldOrdersM, hbody, exceptOk_bind, hfold2]
      · intro k
        rw [hdom2 k, icoInsert, Function.update_apply]
        by_cases hke : k = (m : ℤ) + 2
        · rw [if_pos hke, hke, hr]
          rfl
        · rw [if_neg hke]
      · intro k r2 h2k
        obtain ⟨r1, hd1k, hup12, hdown12⟩ := hrec2 k r2 h2k
        rw [icoInsert, Function.update_apply] at hd1k
        by_cases hke : k = (m : ℤ) + 2
        · rw [if_pos hke] at hd1k
          obtain rfl := Option.some.inj hd1k
          subst hke
          have hr2 : r2.downIndices.isSome = true := hdown12.mpr (Or.inr rfl)
          refine ⟨r, hr, hup12, ?_⟩
          constructor
          · intro _
            exact Or.inl ⟨by omega, by push_cast; omega⟩
          · intro _
            exact hr2
        · rw [if_neg hke] at hd1k
          refine ⟨r1, hd1k, hup12, ?_⟩
          rw [hdown12]
          constructor
          · rintro (⟨ha, hb⟩ | h)
            · exact Or.inl ⟨ha, by push_cast at hb ⊢; omega⟩
            · exact Or.inr h
          · rintro (⟨ha, hb⟩ | h)
            · exact Or.inl ⟨ha, by push_cast at hb ⊢; omega⟩
            · exact Or.inr h

theorem phase3_spec {α : Type} (g : GeoPrims α) :
    ∀ (m : ℕ) (d : IcoDict α),
      (∀ k : ℤ, 1 ≤ k → k ≤ (m : ℤ) → (d k).isSome = true) →
      ∃ d3, foldOrdersM (setUpIndices g) (ordersUp m) d = .ok d3 ∧
        (∀ k, (d3 k).isSome = (d k).isSome) ∧
        (∀ k r3, d3 k = some r3 → ∃ r, d k = some r ∧
          r3.downIndices = r.downIndices ∧
          (r3.upIndices.isSome = true ↔
            ((1 ≤ k ∧ k ≤ (m : ℤ) - 1) ∨ r.upIndices.isSome = true))) := by
  intro m
  induction m using Nat.strong_induction_on with
  | _ m ih =>
    rcases m with _ | _ | m
    · intro d _
      refine ⟨d, rfl, fun k => rfl, fun k r3 h3 => ⟨r3, h3, rfl, ?_⟩⟩
      constructor
      · exact fun h => Or.inr h
      · rintro (⟨hk1, hk2⟩ | h)
        · exact absurd hk2 (by push_cast; omega)
        · exact h
    · intro d _
      refine ⟨d, rfl, fun k => rfl, fun k r3 h3 => ⟨r3, h3, rfl, ?_⟩⟩
      constructor
      · exact fun h => Or.inr h
      · rintro (⟨hk1, hk2⟩ | h)
        · exact absurd hk2 (by push_cast; omega)
        · exact h
    · intro d hdom
      obtain ⟨d3p, hfold3, hdom3, hrec3⟩ := ih (m + 1) (by omega) d
        (fun k hk1 hk2 => hdom k hk1 (by push_cast at hk2 ⊢; omega))
      have h1 : (d3p ((m : ℤ) + 1)).isSome = true := by
        rw [hdom3]
        exact hdom _ (by omega) (by push_cast; omega)
      have h2 : (d3p ((m : ℤ) + 2)).isSome = true := by
        rw [hdom3]
        exact hdom _ (by omega) (by push_cast; omega)
      obtain ⟨r1, hr1⟩ := Option.isSome_iff_exists.mp h1
      obtain ⟨rN, hrN⟩ := Option.isSome_iff_exists.mp h2
      have hbody : setUpIndices g ((m : ℤ) + 1) d3p =
          .ok (icoInsert d3p ((m : ℤ) + 1)
            { r1 with upIndices := some (g.interpolate r1.vertices rN.vertices rN.triangles) }) := by
        rw [setUpIndices, icoLookup, hr1, exceptOk_bind,
          show (m : ℤ) + 1 + 1 = (m : ℤ) + 2 from by ring, icoLookup, hrN,
          exceptOk_bind]
      refine ⟨icoInsert d3p ((m : ℤ) + 1)
        { r1 with upIndices := some (g.interpolate r1.vertices rN.vertices rN.triangles) },
        ?_, ?_, ?_⟩
      · rw [show ordersUp (m + 2) = ordersUp (m + 1) ++ [(m : ℤ) + 1] from rfl,
          foldOrdersM_append, hfold3, exceptOk_bind, foldOrdersM, hbody,
          exceptOk_bind, foldOrdersM]
      · intro k
        rw [icoInsert, Function.update_apply]
        by_cases hke : k = (m : ℤ) + 1
        · rw [if_pos hke, hke]
          have := hdom ((m : ℤ) + 1) (by omega) (by push_cast; omega)
          rw [this]
          rfl
        · rw [if_neg hke]
          exact hdom3 k
      · intro k r3 h3k
        rw [icoInsert, Function.update_apply] at h3k
        by_cases hke : k = (m : ℤ) + 1
        · rw [if_pos hke] at h3k
          obtain rfl := Option.some.inj h3k
          subst hke
          obtain ⟨r, hrk, hdown1, hup1⟩ := hrec3 _ r1 hr1
          refine ⟨r, hrk, hdown1, ?_⟩
          constructor
          · intro _
            exact Or.inl ⟨by omega, by push_cast; omega⟩
          · intro _
            rfl
        · rw [if_neg hke] at h3k
          obtain ⟨r, hrk, hdown1, hup1⟩ := hrec3 k r3 h3k
          refine ⟨r, hrk, hdown1, ?_⟩
          rw [hup1]
          constructor
          · rintro (⟨ha, hb⟩ | h)
            · exact Or.inl ⟨ha, by push_cast at hb ⊢; omega⟩
            · exact Or.inr h
          · rintro (⟨ha, hb⟩ | h)
            · exact Or.inl ⟨ha, by push_cast at hb ⊢; omega⟩
            · exact Or.inr h

theorem buildHierarchy_spec {α : Type} (g : GeoPrims α) {convMode : String}
    (hm : convMode = "1ring" ∨ convMode = "2ring" ∨ convMode = "repa")
    (n : ℕ) :
    ∃ d, buildHierarchy g convMode n = .ok d ∧
      (∀ k : ℤ, (d k).isSome = true ↔ 1 ≤ k ∧ k ≤ (n : ℤ)) ∧
      (∀ k r, d k = some r →
        (r.downIndices.isSome = true ↔ 2 ≤ k ∧ k ≤ (n : ℤ)) ∧
        (r.upIndices.isSome = true ↔ 1 ≤ k ∧ k ≤ (n : ℤ) - 1)) := by
  obtain ⟨d1, hf1, hdom1, hrec1⟩ := phase1_spec g hm n
  have hd1 : ∀ k : ℤ, 1 ≤ k → k ≤ (n : ℤ) → (d1 k).isSome = true :=
    fun k h1 h2 => (hdom1 k).mpr ⟨h1, h2⟩
  obtain ⟨d2, hf2, hdom2, hrec2⟩ := phase2_spec g n d1 hd1
  have hd2 : ∀ k : ℤ, 1 ≤ k → k ≤ (n : ℤ) → (d2 k).isSome = true :=
    fun k h1 h2 => by rw [hdom2]; exact hd1 k h1 h2
  obtain ⟨d3, hf3, hdom3, hrec3⟩ := phase3_spec g n d2 hd2
  refine ⟨d3, ?_, ?_, ?_⟩
  · rw [buildHierarchy, hf1, exceptOk_bind, hf2, exceptOk_bind, hf3]
  · intro k
    rw [hdom3, hdom2]
    exact hdom1 k
  · intro k r3 h3
    obtain ⟨r2, h2k, hdowneq, hupiff⟩ := hrec3 k r3 h3
    obtain ⟨rA, h1k, hupeq, hdowniff⟩ := hrec2 k r2 h2k
    obtain ⟨hdA, huA⟩ := hrec1 k rA h1k
    constructor
    · rw [hdowneq, hdowniff, hdA]
      simp
    · rw [hupiff, hupeq, huA]
      simp

/-- C4: for every valid `in_order ≥ 1` and supported convolution mode (the
external geometric primitives are universally quantified), the hierarchy
built at `SphericalUNet` construction contains exactly `in_order` `Ico`
records, keyed by orders `1 .. in_order` (first conjunct: the dictionary has
an entry at `k` iff `1 ≤ k ≤ in_order`); the record at order `k` has
`down_indices` populated iff `2 ≤ k ≤ in_order` (`None` at the coarsest order
1), and `up_indices` populated iff `1 ≤ k ≤ in_order - 1` (`None` at the
finest order `in_order`). -/
theorem hierarchy_orders_and_indices {α : Type} (g : GeoPrims α)
    (convMode : String) (n : ℕ) (hn : 1 ≤ n)
    (hm : convMode = "1ring" ∨ convMode = "2ring" ∨ convMode = "repa") :
    ∃ d, buildHierarchy g convMode n = .ok d ∧
      (∀ k : ℤ, (d k).isSome = true ↔ 1 ≤ k ∧ k ≤ (n : ℤ)) ∧
      (∀ k r, d k = some r →
        (r.downIndices.isSome = true ↔ 2 ≤ k ∧ k ≤ (n : ℤ)) ∧
        (r.upIndices.isSome = true ↔ 1 ≤ k ∧ k ≤ (n : ℤ) - 1)) :=
  buildHierarchy_spec g hm n

/-- Witness for C4 at `in_order = 2`, mode `1ring`, trivial primitives. -/
theorem hierarchy_orders_and_indices_witness :
    ((1 : ℕ) ≤ 2 ∧
      ("1ring" = "1ring" ∨ "1ring" = "2ring" ∨ "1ring" = "repa")) ∧
    ∃ d, buildHierarchy unitPrims "1ring" 2 = .ok d ∧
      (∀ k : ℤ, (d k).isSome = true ↔ 1 ≤ k ∧ k ≤ (2 : ℤ)) ∧
      (∀ k r, d k = some r →
        (r.downIndices.isSome = true ↔ 2 ≤ k ∧ k ≤ (2 : ℤ)) ∧
        (r.upIndices.isSome = true ↔ 1 ≤ k ∧ k ≤ (2 : ℤ) - 1)) :=
  ⟨⟨by decide, Or.inl rfl⟩,
    hierarchy_orders_and_indices unitPrims "1ring" 2 (by decide) (Or.inl rfl)⟩

theorem phase1_invalid {α : Type} (g : GeoPrims α) {convMode : String}
    (hm : ¬(convMode = "1ring" ∨ convMode = "2ring" ∨ convMode = "repa")) :
    ∀ n : ℕ, 1 ≤ n → ∀ d : IcoDict α,
      foldOrdersM (buildIcoEntry g convMode) (ordersAsc n) d =
        .error (.valueError "Unexptected convolution mode.") := by
  intro n
  induction n with
  | zero => intro h; exact absurd h (by omega)
  | succ n ih =>
    intro _ d
    rw [ordersAsc, foldOrdersM_append]
    rcases Nat.eq_zero_or_pos n with hn | hn
    · subst hn
      rw [show ordersAsc 0 = [] from rfl, foldOrdersM, exceptOk_bind,
        foldOrdersM, buildIcoEntry_invalid g hm, exceptError_bind]
    · rw [ih hn d, exceptError_bind]

theorem buildDownBlocks_ok {α : Type} (d : IcoDict α) (N : ℕ) (f : ℕ → ℕ)
    (upMode : String)
    (hdom : ∀ k : ℤ, 1 ≤ k → k ≤ (N : ℤ) → (d k).isSome = true) :
    ∀ count idx, idx + count ≤ N →
      ∃ l, buildDownBlocks d (N : ℤ) f upMode idx count = .ok l := by
  intro count
  induction count with
  | zero => exact fun idx _ => ⟨[], rfl⟩
  | succ count ih =>
    intro idx h
    have h1 : (d ((N : ℤ) - idx)).isSome = true :=
      hdom _ (by push_cast; omega) (by push_cast; omega)
    obtain ⟨r, hr⟩ := Option.isSome_iff_exists.mp h1
    obtain ⟨l, hl⟩ := ih (idx + 1) (by omega)
    by_cases hidx : idx = 0
    · subst hidx
      exact ⟨_, by
        rw [buildDownBlocks, icoLookup, hr, exceptOk_bind, if_pos rfl,
          exceptOk_bind, hl]
        rfl⟩
    · have h2 : (d ((N : ℤ) - idx + 1)).isSome = true :=
        hdom _ (by push_cast; omega) (by push_cast at h ⊢; omega)
      obtain ⟨rU, hrU⟩ := Option.isSome_iff_exists.mp h2
      exact ⟨_, by
        rw [buildDownBlocks, icoLookup, hr, exceptOk_bind, if_neg hidx,
          icoLookup, hrU, exceptOk_bind, exceptOk_bind, hl]
        rfl⟩

theorem buildUpBlocks_invalid {α : Type} (d : IcoDict α) (f : ℕ → ℕ)
    {upMode : String}
    (hum : ¬(upMode = "interp" ∨ upMode = "zeropad" ∨ upMode = "maxpad" ∨
      upMode = "transpose"))
    (idx : ℕ) (order : ℤ)
    (h1 : (d (order + 1)).isSome = true) (h2 : (d order).isSome = true) :
    buildUpBlocks d f upMode (idx + 1) order =
      .error (.valueError "Invalid upsampling method.") := by
  obtain ⟨rU, hrU⟩ := Option.isSome_iff_exists.mp h1
  obtain ⟨r, hr⟩ := Option.isSome_iff_exists.mp h2
  rw [buildUpBlocks, icoLookup, hrU, exceptOk_bind, icoLookup, hr,
    exceptOk_bind, mkUpBlock, if_neg hum, exceptError_bind]

/-- C3 counterexample: with `in_order = 1`, `depth = 1`,
`conv_mode = "1ring"` and the unsupported `up_mode = "bogus"`, construction
succeeds (no `ValueError` is raised): with `depth = 1` the UpBlock loop
`range(depth - 1, 0, -1)` is empty, so the `up_mode` dispatch never runs. -/
theorem init_invalid_up_mode_counterexample :
    exceptIsOk (sphericalUNetInit unitPrims 1 1 2 4 8 "1ring" "bogus") =
      true := by
  rfl

/-- C3 (amended): an unsupported `conv_mode` raises `ValueError` during
construction provided `in_order ≥ 1` (the check sits inside the per-order
hierarchy loop, which runs iff `in_order ≥ 1`); an unsupported `up_mode`
raises `ValueError` during construction provided the convolution mode is
supported and `2 ≤ depth ≤ in_order` (with `depth < 2` no UpBlock is ever
constructed so the dispatch never runs; with `depth > in_order` a `KeyError`
from the DownBlock wiring precedes it). -/
theorem init_config_errors {α : Type} (g : GeoPrims α)
    (inOrder depth inCh outCh start : ℕ) (convMode upMode : String) :
    (¬(convMode = "1ring" ∨ convMode = "2ring" ∨ convMode = "repa") →
      1 ≤ inOrder →
      sphericalUNetInit g inOrder depth inCh outCh start convMode upMode =
        .error (.valueError "Unexptected convolution mode.")) ∧
    ((convMode = "1ring" ∨ convMode = "2ring" ∨ convMode = "repa") →
      ¬(upMode = "interp" ∨ upMode = "zeropad" ∨ upMode = "maxpad" ∨
        upMode = "transpose") →
      2 ≤ depth → depth ≤ inOrder →
      sphericalUNetInit g inOrder depth inCh outCh start convMode upMode =
        .error (.valueError "Invalid upsampling method.")) := by
  constructor
  · intro hcm hn
    rw [sphericalUNetInit, buildHierarchy, phase1_invalid g hcm inOrder hn _,
      exceptError_bind, exceptError_bind]
  · intro hcm hum hd hn
    obtain ⟨d, hdok, hdom, _⟩ := buildHierarchy_spec g hcm inOrder
    have hdom' : ∀ k : ℤ, 1 ≤ k → k ≤ (inOrder : ℤ) → (d k).isSome = true :=
      fun k h1 h2 => (hdom k).mpr ⟨h1, h2⟩
    obtain ⟨l, hdown⟩ :=
      buildDownBlocks_ok d inOrder (filts inCh start) upMode hdom' depth 0
        (by omega)
    obtain ⟨m, hm⟩ : ∃ m, depth - 1 = m + 1 := ⟨depth - 2, by omega⟩
    have hk1 : (d ((inOrder : ℤ) - depth + 1 + 1)).isSome = true :=
      hdom' _ (by push_cast; omega) (by push_cast; omega)
    have hk2 : (d ((inOrder : ℤ) - depth + 1)).isSome = true :=
      hdom' _ (by push_cast; omega) (by push_cast; omega)
    rw [sphericalUNetInit, hdok, exceptOk_bind, hdown, exceptOk_bind, hm,
      buildUpBlocks_invalid d (filts inCh start) hum m
        ((inOrder : ℤ) - depth + 1) hk1 hk2, exceptError_bind]

/-- Witness for C3 (amended): the `conv_mode` branch at
`conv_mode = "3ring"`, and the `up_mode` branch at `in_order = 3`,
`depth = 2`, `up_mode = "bogus"`. -/
theorem init_config_errors_witness :
    sphericalUNetInit unitPrims 3 2 2 4 8 "3ring" "interp" =
        .error (.valueError "Unexptected convolution mode.") ∧
    sphericalUNetInit unitPrims 3 2 2 4 8 "1ring" "bogus" =
        .error (.valueError "Invalid upsampling method.") :=
  ⟨(init_config_errors unitPrims 3 2 2 4 8 "3ring" "interp").1 (by decide)
      (by decide),
    (init_config_errors unitPrims 3 2 2 4 8 "1ring" "bogus").2 (Or.inl rfl)
      (by decide) (by decide) (by decide)⟩

end Surfify

